import Mathlib

/-!
Shallow embedding of `veil.go` (the method-keyed variant: `determineAccessRules`
and `obtainRequestHandler`), the authorization-filtering relay for HTTP over
UNIX domain sockets, together with proofs about the rule compiler, the
authorizer and the request dispatcher.

Go strings are byte sequences compared bytewise; valid UTF-8 bytewise order
coincides with codepoint order, so we model them as `List Char` with the
lexicographic order. This keeps every definition kernel-computable.
-/

namespace Veil

/-- Go strings, modelled as character lists (bytewise lexicographic order). -/
abbrev GoString := List Char

/-- Convenience conversion from a Lean string literal to a `GoString`. -/
def str (s : String) : GoString := s.toList

/-- Source: `const accessRuleStringDelimiter string = "~"` (a single character). -/
def accessRuleStringDelimiter : Char := '~'

/-- Source: the `unauthorizedMsgString` constant inside `obtainRequestHandler`. -/
def unauthorizedMsgString : GoString :=
  str "\x7b\"type\":\"error\",\"status-code\":401,\"status\":\"Unauthorized\",\"result\":\x7b\"message\":\"access dEEEEEenied\",\"kind\":\"login-required\"\x7d\x7d"

/-- Source: the `badRequestString` constant inside `obtainRequestHandler`. -/
def badRequestString : GoString :=
  str "\x7b\"type\":\"error\",\"status-code\":400,\"status\":\"Invalid Request\",\"result\":\x7b\"message\":\"bad request\"\x7d\x7d"

/-- Source: the `requestTimeoutString` constant inside `obtainRequestHandler`. -/
def requestTimeoutString : GoString :=
  str "\x7b\"type\":\"error\",\"status-code\":408,\"status\":\"Request Timeout\",\"result\":\x7b\"message\":\"request timed out\"\x7d\x7d"

/-- Source: the `internalErrorString` constant inside `obtainRequestHandler`. -/
def internalErrorString : GoString :=
  str "\x7b\"type\":\"error\",\"status-code\":500,\"status\":\"Internal Server Error\",\"result\":\x7b\"message\":\"internal server error\"\x7d\x7d"

/-- Go `strings.Split(s, sep)` for a one-character separator: the substrings
between consecutive occurrences of the separator. `strings.Split("", sep)`
returns `[""]`, and `strings.Split("~", "~")` returns `["", ""]`. -/
def stringsSplit (sep : Char) : GoString → List GoString
  | [] => [[]]
  | c :: rest =>
      match stringsSplit sep rest with
      | [] => [[]]
      | f :: fs => if c = sep then [] :: f :: fs else (c :: f) :: fs

/-- Go's `map[string][]string`, modelled as an association list with unique
keys in insertion order. -/
abbrev RulesMap := List (GoString × List GoString)

/-- Map read: `accessRulesMap[k]` with its `exists` flag folded into `Option`. -/
def mapLookup : RulesMap → GoString → Option (List GoString)
  | [], _ => none
  | (k, v) :: rest, key => if k = key then some v else mapLookup rest key

/-- Source lines 390-396 of `determineAccessRules`: ensure the key has an entry
(empty when absent), then append the value to that entry's slice. -/
def mapAppend : RulesMap → GoString → GoString → RulesMap
  | [], key, v => [(key, [v])]
  | (k, vs) :: rest, key, v =>
      if k = key then (k, vs ++ [v]) :: rest else (k, vs) :: mapAppend rest key v

/-- Source lines 383-388: split a rule line on `~`; a line yields a
(method, path) pair exactly when the split produces two fields, and is
skipped (`continue`) otherwise. -/
def parseRule (rule : GoString) : Option (GoString × GoString) :=
  match stringsSplit accessRuleStringDelimiter rule with
  | [ruleHTTPMethod, ruleResourcePath] => some (ruleHTTPMethod, ruleResourcePath)
  | _ => none

/-- One iteration of the rule-accumulation loop (source lines 382-397). -/
def addRule (accessRulesMap : RulesMap) (rule : GoString) : RulesMap :=
  match parseRule rule with
  | some (ruleHTTPMethod, ruleResourcePath) =>
      mapAppend accessRulesMap ruleHTTPMethod ruleResourcePath
  | none => accessRulesMap

/-- Go `sort.Strings`: sorts a string slice in non-decreasing bytewise order.
Any comparison sort produces the same result (the sorted permutation of a list
under a linear order is unique), so we use insertion sort. -/
def sortStrings (l : List GoString) : List GoString := List.insertionSort (· ≤ ·) l

/-- Source lines 379-406, `determineAccessRules`: accumulate each parsed rule's
path into the slice keyed by its method, then sort every method's slice.
(The method-keyed variant sorts but does not deduplicate.) This function is
total: no input sequence of lines produces an error. -/
def determineAccessRules (accessRulesList : List GoString) : RulesMap :=
  (accessRulesList.foldl addRule []).map (fun e => (e.1, sortStrings e.2))

/-- Source lines 301-309 rely on Go `sort.SearchStrings`, which is
`sort.Search` with `f(h) = a[h] >= x`: the loop on `[i, j)` probing
`h = (i+j)/2`. -/
def searchLoop (a : List GoString) (x : GoString) (i j : Nat) : Nat :=
  if _h : i < j then
    if a.getD ((i + j) / 2) [] < x then searchLoop a x ((i + j) / 2 + 1) j
    else searchLoop a x i ((i + j) / 2)
  else i
termination_by j - i
decreasing_by all_goals omega

/-- Go `sort.SearchStrings(a, x)`: smallest insertion index in `[0, len a]`. -/
def searchStrings (a : List GoString) (x : GoString) : Nat := searchLoop a x 0 a.length

/-- The five methods of the dispatcher's `switch` (source lines 286-294). -/
def supportedMethods : List GoString :=
  [str "GET", str "POST", str "DELETE", str "PATCH", str "PUT"]

/-- The authorizer inlined in `obtainRequestHandler` (source lines 295-309):
deny when the method has no entry; otherwise binary-search the method's slice
and deny unless the returned index is in range and holds exactly the path.
Both deny branches write the unauthorized body in the source. -/
def authorize (accessRulesMap : RulesMap) (meth path : GoString) : Bool :=
  match mapLookup accessRulesMap meth with
  | none => false
  | some accessRulesForMethodType =>
      let idx := searchStrings accessRulesForMethodType path
      if idx = accessRulesForMethodType.length ∨
          accessRulesForMethodType.getD idx [] ≠ path then false
      else true

/-- Result of `(*socketHTTPClientPtr).Do(httpRequest)`: either a response body
or an error (timeout, refused connection, missing socket, ...). -/
inductive RelayResult where
  | success (body : GoString)
  | failure
deriving DecidableEq

/-- The outbound request built by `http.NewRequest(r.Method, requestPath, r.Body)`. -/
structure OutboundRequest where
  method : GoString
  url : GoString
  body : GoString
deriving DecidableEq

/-- Observable behaviour of one run of the request handler: the body written
to the response writer, and the list of outbound requests issued to the
target socket (in order). -/
structure HandlerResult where
  written : GoString
  relayed : List OutboundRequest
deriving DecidableEq

/-- Source lines 281-330, the closure returned by `obtainRequestHandler`.
The two effectful externals are parameters: `constructOk` is whether
`http.NewRequest` succeeds, and `relay` is the `Do` call against the target
socket. Unsupported methods take the `default` arm; supported methods run the
authorizer (its two deny branches both write the unauthorized body); on allow,
a failed construction writes the internal-error body without contacting the
socket, and any error from `relay` writes the request-timeout body. The
function is total: no request crashes the handler. -/
def obtainRequestHandler (accessRulesMap : RulesMap) (meth path body : GoString)
    (constructOk : Bool) (relay : OutboundRequest → RelayResult) : HandlerResult :=
  let requestPath : GoString := str "http://unix" ++ path
  if meth ∈ supportedMethods then
    if authorize accessRulesMap meth path then
      if constructOk then
        let httpRequest : OutboundRequest := ⟨meth, requestPath, body⟩
        match relay httpRequest with
        | RelayResult.success respBody => ⟨respBody, [httpRequest]⟩
        | RelayResult.failure => ⟨requestTimeoutString, [httpRequest]⟩
      else ⟨internalErrorString, []⟩
    else ⟨unauthorizedMsgString, []⟩
  else ⟨badRequestString, []⟩

/-- The (method, path) pairs contributed by a line sequence, in order. -/
def parsedPairs (lines : List GoString) : List (GoString × GoString) :=
  lines.filterMap parseRule

/-- The paths contributed for one method by a line sequence, in order. -/
def pathsFor (meth : GoString) (lines : List GoString) : List GoString :=
  lines.filterMap (fun rule =>
    (parseRule rule).bind (fun q => if q.1 = meth then some q.2 else none))

/-! ### Properties of the map operations -/

lemma mapLookup_mapAppend (A : RulesMap) (k v k' : GoString) :
    mapLookup (mapAppend A k v) k' =
      if k = k' then some ((mapLookup A k).getD [] ++ [v]) else mapLookup A k' := by
  induction A with
  | nil =>
      by_cases h : k = k' <;> simp [mapAppend, mapLookup, h]
  | cons e rest ih =>
      obtain ⟨ke, ve⟩ := e
      by_cases hek : ke = k
      · subst hek
        by_cases h : ke = k' <;> simp [mapAppend, mapLookup, h]
      · by_cases h : ke = k'
        · subst h
          have hk : k ≠ ke := fun hh => hek hh.symm
          simp [mapAppend, mapLookup, hek, hk]
        · simp [mapAppend, mapLookup, hek, h, ih]

lemma mapLookup_foldl_addRule (lines : List GoString) :
    ∀ (acc : RulesMap) (meth : GoString),
      mapLookup (lines.foldl addRule acc) meth =
        match mapLookup acc meth with
        | some l => some (l ++ pathsFor meth lines)
        | none =>
            if pathsFor meth lines = [] then none else some (pathsFor meth lines) := by
  induction lines with
  | nil =>
      intro acc meth
      cases h : mapLookup acc meth <;> simp [pathsFor, h]
  | cons rule rest ih =>
      intro acc meth
      rw [List.foldl_cons, ih]
      cases hp : parseRule rule with
      | none =>
          have ha : addRule acc rule = acc := by simp [addRule, hp]
          have hpf : pathsFor meth (rule :: rest) = pathsFor meth rest := by
            simp [pathsFor, List.filterMap_cons, hp]
          rw [ha, hpf]
      | some q =>
          obtain ⟨m', p'⟩ := q
          have ha : addRule acc rule = mapAppend acc m' p' := by simp [addRule, hp]
          rw [ha, mapLookup_mapAppend]
          by_cases hm : m' = meth
          · subst hm
            have hpf : pathsFor m' (rule :: rest) = p' :: pathsFor m' rest := by
              simp [pathsFor, List.filterMap_cons, hp]
            rw [hpf, if_pos rfl]
            cases h : mapLookup acc m' <;> simp
          · have hpf : pathsFor meth (rule :: rest) = pathsFor meth rest := by
              simp [pathsFor, List.filterMap_cons, hp, hm]
            rw [if_neg hm, hpf]

lemma mapLookup_map_sort (A : RulesMap) (meth : GoString) :
    mapLookup (A.map (fun e => (e.1, sortStrings e.2))) meth =
      (mapLookup A meth).map sortStrings := by
  induction A with
  | nil => simp [mapLookup]
  | cons e rest ih =>
      obtain ⟨k, v⟩ := e
      by_cases h : k = meth <;> simp [mapLookup, h, ih]

/-- Characterization of the compiled table: a method's entry is exactly the
sorted list of the paths its rule lines contribute, absent when there are none. -/
lemma mapLookup_determineAccessRules (lines : List GoString) (meth : GoString) :
    mapLookup (determineAccessRules lines) meth =
      if pathsFor meth lines = [] then none
      else some (sortStrings (pathsFor meth lines)) := by
  unfold determineAccessRules
  rw [mapLookup_map_sort, mapLookup_foldl_addRule]
  show (match (none : Option (List GoString)) with
    | some l => some (l ++ pathsFor meth lines)
    | none =>
        if pathsFor meth lines = [] then none
        else some (pathsFor meth lines)).map sortStrings = _
  by_cases h : pathsFor meth lines = [] <;> simp [h]

lemma mem_pathsFor_iff (meth p : GoString) (lines : List GoString) :
    p ∈ pathsFor meth lines ↔ (meth, p) ∈ parsedPairs lines := by
  simp only [pathsFor, parsedPairs, List.mem_filterMap, Option.bind_eq_some]
  constructor
  · rintro ⟨rule, hr, ⟨m', p'⟩, hq, hif⟩
    by_cases hm : m' = meth
    · subst hm
      rw [if_pos rfl] at hif
      obtain rfl := Option.some_injective _ hif
      exact ⟨rule, hr, hq⟩
    · rw [if_neg hm] at hif
      cases hif
  · rintro ⟨rule, hr, hq⟩
    exact ⟨rule, hr, (meth, p), hq, by simp⟩

lemma mapLookup_determineAccessRules_some (lines : List GoString) (meth : GoString)
    (l : List GoString) (h : mapLookup (determineAccessRules lines) meth = some l) :
    l.Sorted (· ≤ ·) ∧ ∀ p, p ∈ l ↔ (meth, p) ∈ parsedPairs lines := by
  rw [mapLookup_determineAccessRules] at h
  by_cases hp : pathsFor meth lines = []
  · rw [if_pos hp] at h
    cases h
  · rw [if_neg hp] at h
    obtain rfl := (Option.some_injective _ h).symm
    constructor
    · exact List.sorted_insertionSort _ _
    · intro p
      rw [show (p ∈ sortStrings (pathsFor meth lines)) ↔ p ∈ pathsFor meth lines from
            (List.perm_insertionSort _ _).mem_iff]
      exact mem_pathsFor_iff meth p lines

lemma mapLookup_determineAccessRules_none (lines : List GoString) (meth : GoString)
    (h : mapLookup (determineAccessRules lines) meth = none) (path : GoString) :
    (meth, path) ∉ parsedPairs lines := by
  rw [mapLookup_determineAccessRules] at h
  by_cases hp : pathsFor meth lines = []
  · intro hmem
    have hx := (mem_pathsFor_iff meth path lines).mpr hmem
    rw [hp] at hx
    cases hx
  · rw [if_neg hp] at h
    cases h

/-! ### Correctness of the binary search -/

lemma searchLoop_stop (a : List GoString) (x : GoString) (i j : Nat) (h : ¬ i < j) :
    searchLoop a x i j = i := by
  rw [searchLoop, dif_neg h]

lemma searchLoop_step (a : List GoString) (x : GoString) (i j : Nat) (h : i < j) :
    searchLoop a x i j =
      if a.getD ((i + j) / 2) [] < x then searchLoop a x ((i + j) / 2 + 1) j
      else searchLoop a x i ((i + j) / 2) := by
  rw [searchLoop, dif_pos h]

/-- Loop invariant of Go's `sort.Search`: the result stays inside `[i, j]`,
everything strictly left of it compares below `x` (witnessed at the left
boundary), and the element at it, when in range, does not (witnessed at the
right boundary). -/
lemma searchLoop_boundary (a : List GoString) (x : GoString) :
    ∀ (d i j : Nat), j - i ≤ d → i ≤ j → j ≤ a.length →
      (i = 0 ∨ a.getD (i - 1) [] < x) →
      (j = a.length ∨ ¬ a.getD j [] < x) →
      i ≤ searchLoop a x i j ∧ searchLoop a x i j ≤ j ∧
        (searchLoop a x i j = 0 ∨ a.getD (searchLoop a x i j - 1) [] < x) ∧
        (searchLoop a x i j = a.length ∨ ¬ a.getD (searchLoop a x i j) [] < x) := by
  intro d
  induction d with
  | zero =>
      intro i j hd hij hja hlo hhi
      have hieq : i = j := by omega
      subst hieq
      rw [searchLoop_stop a x i i (lt_irrefl i)]
      exact ⟨le_refl i, le_refl i, hlo, hhi⟩
  | succ d ih =>
      intro i j hd hij hja hlo hhi
      by_cases h : i < j
      · rw [searchLoop_step a x i j h]
        by_cases hc : a.getD ((i + j) / 2) [] < x
        · rw [if_pos hc]
          obtain ⟨h1, h2, h3, h4⟩ := ih ((i + j) / 2 + 1) j (by omega) (by omega) hja
            (Or.inr (by simpa using hc)) hhi
          exact ⟨by omega, h2, h3, h4⟩
        · rw [if_neg hc]
          obtain ⟨h1, h2, h3, h4⟩ := ih i ((i + j) / 2) (by omega) (by omega) (by omega)
            hlo (Or.inr hc)
          exact ⟨h1, by omega, h3, h4⟩
      · have hieq : i = j := by omega
        subst hieq
        rw [searchLoop_stop a x i i (lt_irrefl i)]
        exact ⟨le_refl i, le_refl i, hlo, hhi⟩

lemma searchStrings_boundary (a : List GoString) (x : GoString) :
    searchStrings a x ≤ a.length ∧
      (searchStrings a x = 0 ∨ a.getD (searchStrings a x - 1) [] < x) ∧
      (searchStrings a x = a.length ∨ ¬ a.getD (searchStrings a x) [] < x) := by
  obtain ⟨h1, h2, h3, h4⟩ := searchLoop_boundary a x a.length 0 a.length (by omega)
    (by omega) (le_refl _) (Or.inl rfl) (Or.inl rfl)
  exact ⟨h2, h3, h4⟩

/-- On a sorted list, the exact-match check after the binary search succeeds
if and only if the sought string is a member. -/
lemma searchStrings_found_iff (a : List GoString) (x : GoString)
    (hs : a.Sorted (· ≤ ·)) :
    (searchStrings a x < a.length ∧ a.getD (searchStrings a x) [] = x) ↔ x ∈ a := by
  obtain ⟨hle, hlo, hhi⟩ := searchStrings_boundary a x
  set r := searchStrings a x with hr
  have hsorted : ∀ (u v : Nat) (hu : u < a.length) (hv : v < a.length),
      u ≤ v → a[u] ≤ a[v] := by
    intro u v hu hv huv
    have := hs.rel_get_of_le (a := ⟨u, hu⟩) (b := ⟨v, hv⟩) (Fin.mk_le_mk.mpr huv)
    simpa using this
  constructor
  · rintro ⟨hlt, heq⟩
    rw [List.getD_eq_getElem a [] hlt] at heq
    exact heq ▸ List.getElem_mem hlt
  · intro hmem
    obtain ⟨k, hk, hke⟩ := List.getElem_of_mem hmem
    have hlt : r < a.length := by
      rcases Nat.lt_or_ge r a.length with hx | hx
      · exact hx
      · exfalso
        rcases hlo with h0 | hless
        · omega
        · have hr1 : r - 1 < a.length := by omega
          rw [List.getD_eq_getElem a [] hr1] at hless
          have hmono := hsorted k (r - 1) hk hr1 (by omega)
          rw [hke] at hmono
          exact absurd hless (not_lt.mpr hmono)
    have hge : ¬ a[r] < x := by
      rcases hhi with hx | hx
      · omega
      · rw [List.getD_eq_getElem a [] hlt] at hx
        exact hx
    refine ⟨hlt, ?_⟩
    rw [List.getD_eq_getElem a [] hlt]
    rcases Nat.lt_or_ge k r with hkr | hkr
    · exfalso
      rcases hlo with h0 | hless
      · omega
      · have hr1 : r - 1 < a.length := by omega
        rw [List.getD_eq_getElem a [] hr1] at hless
        have hmono := hsorted k (r - 1) hk hr1 (by omega)
        rw [hke] at hmono
        exact absurd hless (not_lt.mpr hmono)
    · have h1 : a[r] ≤ a[k] := hsorted r k hlt hk hkr
      rw [hke] at h1
      exact le_antisymm h1 (le_of_not_lt hge)

/-! ### The authorizer on compiled tables -/

lemma parseRule_eq_none (rule : GoString)
    (h : (stringsSplit accessRuleStringDelimiter rule).length ≠ 2) :
    parseRule rule = none := by
  unfold parseRule
  split
  next m p heq =>
    rw [heq] at h
    simp at h
  next => rfl

/-- The authorizer accepts exactly the (method, path) pairs contributed by the
rule lines the table was compiled from. -/
lemma authorize_determineAccessRules_iff (lines : List GoString) (meth path : GoString) :
    authorize (determineAccessRules lines) meth path = true ↔
      (meth, path) ∈ parsedPairs lines := by
  cases h : mapLookup (determineAccessRules lines) meth with
  | none =>
      simp only [authorize, h]
      constructor
      · intro hfalse
        cases hfalse
      · intro hmem
        exact absurd hmem (mapLookup_determineAccessRules_none lines meth h path)
  | some l =>
      obtain ⟨hsort, hmem⟩ := mapLookup_determineAccessRules_some lines meth l h
      simp only [authorize, h]
      rw [← hmem path, ← searchStrings_found_iff l path hsort]
      have hle : searchStrings l path ≤ l.length := (searchStrings_boundary l path).1
      by_cases hc : searchStrings l path = l.length ∨ l.getD (searchStrings l path) [] ≠ path
      · rw [if_pos hc]
        constructor
        · intro hfalse
          cases hfalse
        · rintro ⟨hlt, heq⟩
          rcases hc with hc | hc
          · omega
          · exact absurd heq hc
      · rw [if_neg hc]
        push_neg at hc
        exact iff_of_true rfl ⟨by omega, hc.2⟩

/-! ### Claims -/

/-- C1, counterexample: the claim quantifies over every inbound request, but a
request whose method is unsupported (here `OPTIONS` against the empty table,
whose (method, path) pair is certainly not present) is answered with the
bad-request body, not the unauthorized body. The relay is still not invoked. -/
theorem C1_counterexample :
    mapLookup (determineAccessRules []) (str "OPTIONS") = none ∧
    (obtainRequestHandler (determineAccessRules []) (str "OPTIONS") (str "/x") []
        true (fun _ => RelayResult.failure)).written ≠ unauthorizedMsgString ∧
    (obtainRequestHandler (determineAccessRules []) (str "OPTIONS") (str "/x") []
        true (fun _ => RelayResult.failure)).written = badRequestString ∧
    (obtainRequestHandler (determineAccessRules []) (str "OPTIONS") (str "/x") []
        true (fun _ => RelayResult.failure)).relayed = [] := by
  refine ⟨by decide, ?_, by decide, by decide⟩
  decide

/-- C1, amended: for every compiled rule table and every inbound request whose
(method, path) pair is not present in the table, the dispatcher never invokes
the relay call to the target socket; when the request's method is moreover one
of the supported methods, it writes the unauthorized body (an unsupported
method gets the bad-request body instead). -/
theorem C1_denied_no_relay (lines : List GoString) (meth path body : GoString)
    (cOk : Bool) (relay : OutboundRequest → RelayResult)
    (habsent : ∀ l, mapLookup (determineAccessRules lines) meth = some l → path ∉ l) :
    (meth ∈ supportedMethods →
      obtainRequestHandler (determineAccessRules lines) meth path body cOk relay
        = ⟨unauthorizedMsgString, []⟩) ∧
    (obtainRequestHandler (determineAccessRules lines) meth path body cOk relay).relayed
      = [] := by
  have hauth : authorize (determineAccessRules lines) meth path = false := by
    cases hb : authorize (determineAccessRules lines) meth path
    · rfl
    · exfalso
      have hmem := (authorize_determineAccessRules_iff lines meth path).mp hb
      cases h : mapLookup (determineAccessRules lines) meth with
      | none => exact mapLookup_determineAccessRules_none lines meth h path hmem
      | some l =>
          obtain ⟨_, hm⟩ := mapLookup_determineAccessRules_some lines meth l h
          exact habsent l h ((hm path).mpr hmem)
  constructor
  · intro hsup
    simp [obtainRequestHandler, hsup, hauth]
  · by_cases hsup : meth ∈ supportedMethods
    · simp [obtainRequestHandler, hsup, hauth]
    · simp [obtainRequestHandler, hsup]

/-- C1, witness: under the table compiled from `GET~/a`, a `GET /x` request is
answered with the unauthorized body and no outbound request is issued. -/
theorem C1_witness :
    obtainRequestHandler (determineAccessRules [str "GET~/a"]) (str "GET") (str "/x") []
      true (fun _ => RelayResult.failure) = ⟨unauthorizedMsgString, []⟩ := by
  refine (C1_denied_no_relay [str "GET~/a"] (str "GET") (str "/x") [] true
    (fun _ => RelayResult.failure) ?_).1 (by decide)
  intro l hl
  have he : mapLookup (determineAccessRules [str "GET~/a"]) (str "GET")
      = some [str "/a"] := by decide
  rw [he] at hl
  obtain rfl := Option.some_injective _ hl
  decide

/-- C2: for every rule table produced by the compiler, the authorizer allows a
(method, path) probe exactly when the method has an entry and the exact-match
binary search finds the path in that entry's sorted list — equivalently, when
the path is a member of that list; in particular a method without an entry is
always denied. -/
theorem C2_authorize_iff_member (lines : List GoString) (meth path : GoString) :
    authorize (determineAccessRules lines) meth path = true ↔
      ∃ l, mapLookup (determineAccessRules lines) meth = some l ∧ path ∈ l := by
  rw [authorize_determineAccessRules_iff]
  constructor
  · intro hmem
    cases h : mapLookup (determineAccessRules lines) meth with
    | none => exact absurd hmem (mapLookup_determineAccessRules_none lines meth h path)
    | some l =>
        exact ⟨l, rfl,
          ((mapLookup_determineAccessRules_some lines meth l h).2 path).mpr hmem⟩
  · rintro ⟨l, hl, hp⟩
    exact ((mapLookup_determineAccessRules_some lines meth l hl).2 path).mp hp

/-- C3, counterexample: the compiler does not deduplicate: compiling `GET~/a`
twice yields the path list `[/a, /a]` of size 2 for `GET`, so the claimed
no-duplicates invariant is false. -/
theorem C3_counterexample :
    mapLookup (determineAccessRules [str "GET~/a", str "GET~/a"]) (str "GET")
      = some [str "/a", str "/a"] ∧
    ¬ (∀ (lines : List GoString) (meth : GoString) (l : List GoString),
        mapLookup (determineAccessRules lines) meth = some l → l.Nodup) := by
  refine ⟨by decide, fun h => ?_⟩
  have hd := h [str "GET~/a", str "GET~/a"] (str "GET") [str "/a", str "/a"] (by decide)
  exact absurd hd (by decide)

/-- C3, amended: each method's compiled path list is sorted in non-decreasing
lexicographic order; duplicates are retained (compiling `GET~/a` twice yields
a path list of size 2, not 1), which leaves every allow/deny answer unchanged
since lookup is by exact-match search. -/
theorem C3_sorted_paths (lines : List GoString) (meth : GoString) (l : List GoString)
    (h : mapLookup (determineAccessRules lines) meth = some l) :
    l.Sorted (· ≤ ·) :=
  (mapLookup_determineAccessRules_some lines meth l h).1

/-- C3, witness: the table compiled from `GET~/b`, `GET~/a` stores the sorted
list `[/a, /b]` for `GET`. -/
theorem C3_witness : ([str "/a", str "/b"] : List GoString).Sorted (· ≤ ·) :=
  C3_sorted_paths [str "GET~/b", str "GET~/a"] (str "GET") [str "/a", str "/b"]
    (by decide)

/-- C4, counterexample: the line `~` splits on `~` into exactly two (empty)
fields, so it is not skipped: it contributes the entry mapping method `""` to
the path list `[""]`, and the compiled table is not empty. -/
theorem C4_counterexample :
    determineAccessRules [str "~"] = [([], [[]])] ∧
    determineAccessRules [str "~"] ≠ [] := by
  refine ⟨by decide, by decide⟩

/-- C4, amended: a line that does not split on `~` into exactly two fields is
silently skipped, and `GET` and `GET~/a~extra` indeed contribute nothing; but
`~` splits into two empty fields and contributes a dead entry (method `""`,
path `""`), which no request with a nonempty method name can ever reach. -/
theorem C4_malformed_skipped :
    (∀ (pre post : List GoString) (rule : GoString),
        (stringsSplit accessRuleStringDelimiter rule).length ≠ 2 →
        determineAccessRules (pre ++ rule :: post) = determineAccessRules (pre ++ post)) ∧
    determineAccessRules [str "GET"] = [] ∧
    determineAccessRules [str "GET~/a~extra"] = [] ∧
    determineAccessRules [str "~"] = [([], [[]])] ∧
    (∀ meth path : GoString, meth ≠ [] →
        authorize (determineAccessRules [str "~"]) meth path = false) := by
  refine ⟨?_, by decide, by decide, by decide, ?_⟩
  · intro pre post rule h
    have hnone : parseRule rule = none := parseRule_eq_none rule h
    unfold determineAccessRules
    rw [List.foldl_append, List.foldl_cons, List.foldl_append]
    rw [show addRule (List.foldl addRule [] pre) rule = List.foldl addRule [] pre by
      simp [addRule, hnone]]
  · intro meth path hmeth
    have hl : mapLookup (determineAccessRules [str "~"]) meth = none := by
      rw [show determineAccessRules [str "~"] = [([], [[]])] by decide]
      simp only [mapLookup]
      rw [if_neg (fun hh => hmeth hh.symm)]
    simp [authorize, hl]

/-- C4, witness: a malformed `GET` line in the middle of a rule file changes
nothing, and a nonempty method is denied under the table compiled from `~`. -/
theorem C4_witness :
    determineAccessRules [str "GET~/a", str "GET", str "POST~/b"]
      = determineAccessRules [str "GET~/a", str "POST~/b"] ∧
    authorize (determineAccessRules [str "~"]) (str "GET") [] = false :=
  ⟨C4_malformed_skipped.1 [str "GET~/a"] [str "POST~/b"] (str "GET") (by decide),
   C4_malformed_skipped.2.2.2.2 (str "GET") [] (by decide)⟩

/-- C5: a request whose method is outside {GET, POST, DELETE, PATCH, PUT} is
answered with the bad-request body and no outbound request, whatever the rule
table holds — the table is quantified over, so it is never consulted. -/
theorem C5_unsupported_method (accessRulesMap : RulesMap) (meth path body : GoString)
    (cOk : Bool) (relay : OutboundRequest → RelayResult)
    (h : meth ∉ supportedMethods) :
    obtainRequestHandler accessRulesMap meth path body cOk relay
      = ⟨badRequestString, []⟩ := by
  simp [obtainRequestHandler, h]

/-- C5, witness: an `OPTIONS` request gets the bad-request body even when the
table itself contains an `OPTIONS` entry for that very path. -/
theorem C5_witness :
    obtainRequestHandler [(str "OPTIONS", [str "/x"])] (str "OPTIONS") (str "/x") []
      true (fun _ => RelayResult.failure) = ⟨badRequestString, []⟩ :=
  C5_unsupported_method [(str "OPTIONS", [str "/x"])] (str "OPTIONS") (str "/x") []
    true (fun _ => RelayResult.failure) (by decide)

/-- Every outbound request the handler can issue is the inbound request
rewritten onto the synthetic host: same method, path prefixed with
`http://unix`, same body. -/
lemma relayed_shape (t : RulesMap) (meth path body : GoString) (cOk : Bool)
    (relay : OutboundRequest → RelayResult) :
    (obtainRequestHandler t meth path body cOk relay).relayed = [] ∨
      (obtainRequestHandler t meth path body cOk relay).relayed
        = [⟨meth, str "http://unix" ++ path, body⟩] := by
  unfold obtainRequestHandler
  by_cases hsup : meth ∈ supportedMethods
  · by_cases hauth : authorize t meth path = true
    · cases cOk with
      | false => simp [hsup, hauth]
      | true =>
          cases hrel : relay ⟨meth, str "http://unix" ++ path, body⟩ with
          | success respBody => simp [hsup, hauth, hrel]
          | failure => simp [hsup, hauth, hrel]
    · simp [hsup, hauth]
  · simp [hsup]

/-- C6: whenever the handler contacts the target socket, the outbound request
carries the same method, the same path rewritten onto `http://unix`, and the
same body as the inbound request; and for a request whose (method, path) pair
is present in the compiled table (method supported, construction succeeding),
exactly that one outbound request is issued. -/
theorem C6_relay_preserves_request (lines : List GoString) (meth path body : GoString)
    (cOk : Bool) (relay : OutboundRequest → RelayResult) (l : List GoString) :
    (∀ q ∈ (obtainRequestHandler (determineAccessRules lines) meth path body
        cOk relay).relayed, q = ⟨meth, str "http://unix" ++ path, body⟩) ∧
    (meth ∈ supportedMethods →
      mapLookup (determineAccessRules lines) meth = some l → path ∈ l →
      (obtainRequestHandler (determineAccessRules lines) meth path body true relay).relayed
        = [⟨meth, str "http://unix" ++ path, body⟩]) := by
  constructor
  · intro q hq
    rcases relayed_shape (determineAccessRules lines) meth path body cOk relay with h | h
    · rw [h] at hq
      cases hq
    · rw [h] at hq
      simpa using hq
  · intro hsup hlook hpmem
    have hauth : authorize (determineAccessRules lines) meth path = true :=
      (authorize_determineAccessRules_iff lines meth path).mpr
        (((mapLookup_determineAccessRules_some lines meth l hlook).2 path).mp hpmem)
    unfold obtainRequestHandler
    cases hrel : relay ⟨meth, str "http://unix" ++ path, body⟩ with
    | success respBody => simp [hsup, hauth, hrel]
    | failure => simp [hsup, hauth, hrel]

/-- C6, witness: with rules `GET~/status`, an allowed `GET /status` with body
`B` issues exactly one outbound request `GET http://unix/status` with body `B`. -/
theorem C6_witness :
    (obtainRequestHandler (determineAccessRules [str "GET~/status"]) (str "GET")
        (str "/status") (str "B") true
        (fun _ => RelayResult.success (str "R"))).relayed
      = [⟨str "GET", str "http://unix" ++ str "/status", str "B"⟩] :=
  (C6_relay_preserves_request [str "GET~/status"] (str "GET") (str "/status") (str "B")
      true (fun _ => RelayResult.success (str "R")) [str "/status"]).2
    (by decide) (by decide) (by decide)

/-- C7: for an allowed request, each relay failure maps to exactly one typed
body (the handler is a total function, so no request crashes it): when the
outbound request cannot be constructed the internal-error body is written and
the socket is not contacted, and when the relay call returns any error — a
timeout as well as any other transport or connection failure, such as a
nonexistent target socket — the request-timeout body is written. -/
theorem C7_failure_bodies (lines : List GoString) (meth path body : GoString)
    (relay : OutboundRequest → RelayResult) (l : List GoString)
    (hsup : meth ∈ supportedMethods)
    (hlook : mapLookup (determineAccessRules lines) meth = some l)
    (hpmem : path ∈ l) :
    obtainRequestHandler (determineAccessRules lines) meth path body false relay
      = ⟨internalErrorString, []⟩ ∧
    (relay ⟨meth, str "http://unix" ++ path, body⟩ = RelayResult.failure →
      (obtainRequestHandler (determineAccessRules lines) meth path body true
          relay).written = requestTimeoutString) := by
  have hauth : authorize (determineAccessRules lines) meth path = true :=
    (authorize_determineAccessRules_iff lines meth path).mpr
      (((mapLookup_determineAccessRules_some lines meth l hlook).2 path).mp hpmem)
  constructor
  · simp [obtainRequestHandler, hsup, hauth]
  · intro hrel
    simp [obtainRequestHandler, hsup, hauth, hrel]

/-- C7, witness: with rules `GET~/a`, an allowed `GET /a` writes the
internal-error body when construction fails, and the request-timeout body when
every relay attempt errors out. -/
theorem C7_witness :
    obtainRequestHandler (determineAccessRules [str "GET~/a"]) (str "GET") (str "/a") []
        false (fun _ => RelayResult.failure) = ⟨internalErrorString, []⟩ ∧
    (obtainRequestHandler (determineAccessRules [str "GET~/a"]) (str "GET") (str "/a") []
        true (fun _ => RelayResult.failure)).written = requestTimeoutString := by
  have h := C7_failure_bodies [str "GET~/a"] (str "GET") (str "/a") []
    (fun _ => RelayResult.failure) [str "/a"] (by decide) (by decide) (by decide)
  exact ⟨h.1, h.2 rfl⟩

/-- C8: compilation is total (a Lean function: no input raises an error), the
empty input compiles to the empty table, the authorizer denies every method
and path under it, and the dispatcher answers every supported-method request
with the unauthorized body without contacting the target socket. -/
theorem C8_empty_denies_all :
    determineAccessRules [] = [] ∧
    (∀ meth path : GoString, authorize (determineAccessRules []) meth path = false) ∧
    (∀ (meth path body : GoString) (cOk : Bool) (relay : OutboundRequest → RelayResult),
        meth ∈ supportedMethods →
        obtainRequestHandler (determineAccessRules []) meth path body cOk relay
          = ⟨unauthorizedMsgString, []⟩) := by
  refine ⟨rfl, ?_, ?_⟩
  · intro meth path
    simp [authorize, mapLookup, determineAccessRules]
  · intro meth path body cOk relay hsup
    have hauth : authorize (determineAccessRules []) meth path = false := by
      simp [authorize, mapLookup, determineAccessRules]
    simp [obtainRequestHandler, hsup, hauth]

/-- C8, witness: under the table compiled from no lines, a `GET /x` request is
answered with the unauthorized body and no outbound request. -/
theorem C8_witness :
    obtainRequestHandler (determineAccessRules []) (str "GET") (str "/x") [] true
      (fun _ => RelayResult.failure) = ⟨unauthorizedMsgString, []⟩ :=
  C8_empty_denies_all.2.2 (str "GET") (str "/x") [] true (fun _ => RelayResult.failure)
    (by decide)

/-- C9: compiling any permutation of a rule file yields a table that gives the
same allow/deny answer on every (method, path) probe — line order never
affects an authorization decision. -/
theorem C9_perm_invariant (l₁ l₂ : List GoString) (hp : l₁.Perm l₂)
    (meth path : GoString) :
    authorize (determineAccessRules l₁) meth path
      = authorize (determineAccessRules l₂) meth path := by
  rw [Bool.eq_iff_iff, authorize_determineAccessRules_iff,
    authorize_determineAccessRules_iff]
  exact (hp.filterMap parseRule).mem_iff

/-- C9, witness: swapping the two lines `GET~/a`, `POST~/b` leaves the answer
for the probe `(GET, /a)` unchanged. -/
theorem C9_witness :
    authorize (determineAccessRules [str "GET~/a", str "POST~/b"]) (str "GET") (str "/a")
      = authorize (determineAccessRules [str "POST~/b", str "GET~/a"])
          (str "GET") (str "/a") :=
  C9_perm_invariant [str "GET~/a", str "POST~/b"] [str "POST~/b", str "GET~/a"]
    (List.Perm.swap (str "POST~/b") (str "GET~/a") []) (str "GET") (str "/a")

/-- C10: authorization is monotone in the rule file — appending one more line
never revokes an allowance granted by the table compiled from the original
lines. -/
theorem C10_monotone_append (lines : List GoString) (x meth path : GoString)
    (h : authorize (determineAccessRules lines) meth path = true) :
    authorize (determineAccessRules (lines ++ [x])) meth path = true := by
  rw [authorize_determineAccessRules_iff] at h ⊢
  simp only [parsedPairs, List.filterMap_append] at h ⊢
  exact List.mem_append.mpr (Or.inl h)

/-- C10, witness: `(GET, /a)` is allowed under `GET~/a` and stays allowed after
appending `POST~/b`. -/
theorem C10_witness :
    authorize (determineAccessRules ([str "GET~/a"] ++ [str "POST~/b"]))
      (str "GET") (str "/a") = true :=
  C10_monotone_append [str "GET~/a"] (str "POST~/b") (str "GET") (str "/a")
    ((authorize_determineAccessRules_iff [str "GET~/a"] (str "GET") (str "/a")).mpr
      (by decide))

end Veil
